import Mathlib

/-!
Shallow embedding of the 2-D grid utility of `aoc_utils/grid.py`
(jrodal98/advent-of-code-2023), together with proofs of the spec's claims.

Python conventions modelled explicitly:
* Python list indexing `data[i]` accepts negative indices (`-len <= i < 0`
  addresses from the end) and raises `IndexError` otherwise; we model a
  lookup as `Option`, `none` standing for the raised error.
* Python `%` on integers agrees with `Int.emod` (result has the sign of the
  divisor).
* A Python `assert` failure or a raised exception in a constructor is
  modelled by returning `none`.
-/

/-- Modelled from the spec: `aoc_utils/point.py` is not under `src/`; the spec
describes `Point` as an immutable pair of integer coordinates (x, y) with
equality by value. -/
structure Point where
  x : Int
  y : Int
deriving DecidableEq, Repr

/-- Modelled from the spec: `Direction` is an enumerated value naming one of 8
directions (4 orthogonal + 4 diagonal), each mapping to a coordinate delta.
`aoc_utils/point.py` is not under `src/`. -/
inductive Direction where
  | up
  | down
  | left
  | right
  | upperLeft
  | upperRight
  | bottomLeft
  | bottomRight
deriving DecidableEq, Repr

/-- Modelled from the spec: the coordinate delta of each direction.  The grid
is row-major with y growing downwards, so `up` decreases y and `down`
increases y; the spec's corner example (top-left corner with diagonals
disabled has exactly the `right` and `down` neighbors) pins this down. -/
def Direction.delta : Direction → Int × Int
  | .up => (0, -1)
  | .down => (0, 1)
  | .left => (-1, 0)
  | .right => (1, 0)
  | .upperLeft => (-1, -1)
  | .upperRight => (1, -1)
  | .bottomLeft => (-1, 1)
  | .bottomRight => (1, 1)

/-- Modelled from the spec: the point adjacent to `p` in direction `d`. -/
def Point.neighbor (p : Point) (d : Direction) : Point :=
  ⟨p.x + d.delta.1, p.y + d.delta.2⟩

/-- Modelled from the spec: the 4 or 8 candidate (neighbor, direction) pairs
around a point, in a fixed canonical direction order (the cardinal directions
first; the exact order is not observable by any claim proved below, all of
which are order-insensitive). -/
def Point.neighborsWithDirection (p : Point) (includeDiagonal : Bool) :
    List (Point × Direction) :=
  (if includeDiagonal then
      [Direction.up, .down, .left, .right, .upperLeft, .upperRight,
        .bottomLeft, .bottomRight]
    else [Direction.up, .down, .left, .right]).map
    (fun d => (p.neighbor d, d))

/-- Python list indexing `l[i]` for an `Int` index: nonnegative indices from
the front, negative indices in `[-len, 0)` from the back, `none` for the
`IndexError` otherwise. -/
def pyGet (l : List α) (i : Int) : Option α :=
  if 0 ≤ i then l.get? i.toNat
  else if -(l.length : Int) ≤ i then l.get? ((l.length : Int) + i).toNat
  else none

/-- The `Grid` data model of `grid.py`: width, height, flat row-major data,
and the grid-level `allow_overflow` flag (`__init__` lines 21-44 store exactly
these four attributes). -/
structure Grid (α : Type) where
  w : Nat
  h : Nat
  data : List α
  allow_overflow : Bool
deriving DecidableEq, Repr

namespace Grid

variable {α : Type}

/-- `Grid._allow_overflow`: an explicit per-call argument wins; `None`
inherits the grid-level flag. -/
def overflowOf (g : Grid α) (allowOverflow : Option Bool) : Bool :=
  match allowOverflow with
  | none => g.allow_overflow
  | some b => b

/-- `Grid.inbounds`: `0 <= x < w and 0 <= y < h`. -/
def inbounds (g : Grid α) (p : Point) : Bool :=
  decide (0 ≤ p.x) && decide (p.x < (g.w : Int)) &&
    (decide (0 ≤ p.y) && decide (p.y < (g.h : Int)))

/-- `Grid.at` (named `atP` here because `at` is a Lean keyword): wrap the
coordinates modulo (w, h) when overflow is in effect, then read
`data[y * w + x]` with Python list-index semantics. -/
def atP (g : Grid α) (p : Point) (allowOverflow : Option Bool := none) :
    Option α :=
  let q : Point :=
    if g.overflowOf allowOverflow then
      ⟨p.x % (g.w : Int), p.y % (g.h : Int)⟩
    else p
  pyGet g.data (q.y * (g.w : Int) + q.x)

/-- `Grid.get`: in bounds, defer to `at` with the caller's overflow argument;
out of bounds, defer to `at` with overflow forced on when it resolves to
true (the walrus in line 334 passes the resolved flag), else return the
default. -/
def get (g : Grid α) (p : Point) (default : Option α := none)
    (allowOverflow : Option Bool := none) : Option α :=
  if g.inbounds p then g.atP p allowOverflow
  else if g.overflowOf allowOverflow then g.atP p (some true)
  else default

/-- The row-major flat index of an in-bounds point, as a natural number. -/
def natIdx (g : Grid α) (p : Point) : Nat :=
  p.y.toNat * g.w + p.x.toNat

/-- The element of a well-formed grid at row `r`, column `c`: the Python read
`self.data[r * self.w + c]` used by `iter_rows`/`iter_cols` (always in bounds
there), made total with a default. -/
def cellD [Inhabited α] (g : Grid α) (r c : Nat) : α :=
  g.data.getD (r * g.w + c) default

/-- `Grid.iter_cols` materialised (as `cols` does): column `c` is
`(self.data[r * self.w + c] for r in range(self.h))`. -/
def cols [Inhabited α] (g : Grid α) : List (List α) :=
  (List.range g.w).map fun c =>
    (List.range g.h).map fun r => g.cellD r c

end Grid

/-- The dimension inference of `Grid.__init__` (lines 30-39): a given `w`
wins and `h` is taken when truthy, else computed as `len // w` (a `w` of zero
then raises `ZeroDivisionError`, modelled as `none`); with only a truthy `h`,
`w = len // h`; with neither, both default to the integer square root of the
length (`int(sqrt(len_data))`, which agrees with `Nat.sqrt` on the exactly
representable sizes at play).  A falsy `h` (`None` or `0`) is not taken, by
Python truthiness. -/
def inferDims (n : Nat) : Option Nat → Option Nat → Option (Nat × Nat)
  | some w, some hh =>
      if hh ≠ 0 then some (w, hh)
      else if w = 0 then none else some (w, n / w)
  | some w, none => if w = 0 then none else some (w, n / w)
  | none, some hh =>
      if hh ≠ 0 then some (n / hh, hh) else some (Nat.sqrt n, Nat.sqrt n)
  | none, none => some (Nat.sqrt n, Nat.sqrt n)

/-- `Grid.__init__`: infer the dimensions, then `assert self.w * self.h ==
len_data` (line 41); an assertion failure is modelled as `none`. -/
def mkGrid {α : Type} (data : List α) (w? h? : Option Nat)
    (allowOverflow : Bool := false) : Option (Grid α) :=
  match inferDims data.length w? h? with
  | none => none
  | some (w, hh) =>
      if w * hh = data.length then some ⟨w, hh, data, allowOverflow⟩
      else none

/-- `Grid.transpose`:
`Grid([cell for col in self.iter_cols() for cell in col], w=self.h, h=self.w)`. -/
def Grid.transpose {α : Type} [Inhabited α] (g : Grid α) : Option (Grid α) :=
  mkGrid g.cols.flatten (some g.h) (some g.w)

/-- `Grid.rotate`:
`Grid([cell for col in self.iter_cols() for cell in reversed(list(col))],
w=self.h, h=self.w)`. -/
def Grid.rotate {α : Type} [Inhabited α] (g : Grid α) : Option (Grid α) :=
  mkGrid (g.cols.map List.reverse).flatten (some g.h) (some g.w)

/-- The flat list produced by the doubly nested Python comprehension
`[f i j for i in range(m) for j in range(n)]`. -/
def genData {α : Type} (m n : Nat) (f : Nat → Nat → α) : List α :=
  (List.range m).flatMap fun i => (List.range n).map (f i)

/-- The grid that `transpose` builds, as a record. -/
def Grid.transResult {α : Type} [Inhabited α] (g : Grid α) : Grid α :=
  ⟨g.h, g.w, genData g.w g.h (fun c r => g.cellD r c), false⟩

/-- The grid that `rotate` builds, as a record. -/
def Grid.rotResult {α : Type} [Inhabited α] (g : Grid α) : Grid α :=
  ⟨g.h, g.w, genData g.w g.h (fun c r => g.cellD (g.h - 1 - r) c), false⟩

/-- `Grid.replace` (without the presentation-only `color` argument, which can
only alter string-typed cells and is the identity for the abstract element
type modelled here): wrap the coordinates when overflow is in effect;
otherwise silently no-op when `self.get(p)` is `None`; else write
`data[y * w + x] = value`. -/
def Grid.replace {α : Type} (g : Grid α) (p : Point) (value : α)
    (allowOverflow : Option Bool := none) : Grid α :=
  if g.overflowOf allowOverflow then
    { g with
        data := g.data.set
          ((p.y % (g.h : Int)) * (g.w : Int) + p.x % (g.w : Int)).toNat
          value }
  else if (g.get p none none).isNone then g
  else
    { g with
        data := g.data.set (p.y * (g.w : Int) + p.x).toNat value }

/-- The `exclude`/`include` arguments of the filtering operations: either a
literal value cells are compared against, or a callable predicate on
(point, cell). -/
inductive GFilter (α : Type) where
  | lit (v : α)
  | pred (f : Point → α → Bool)

/-- `Grid._should_include`: exclusion is checked first, then inclusion; a
cell must pass both to be kept. -/
def shouldInclude {α : Type} [DecidableEq α] (point : Point) (cell : α)
    (excl incl : Option (GFilter α)) : Bool :=
  if (match excl with
      | some (.pred f) => f point cell
      | some (.lit v) => decide (cell = v)
      | none => false) then
    false
  else if (match incl with
      | some (.pred f) => !f point cell
      | some (.lit v) => decide (cell ≠ v)
      | none => false) then
    false
  else true

/-- `Grid.neighbors`: for each candidate (neighbor, direction) pair, look the
value up with `get` (passing this call's overflow argument along — and note
its default here is `False`, not `None`: by default the method does not
inherit the grid-level flag), and yield the (point, value, direction) triple
when the value is present and passes the filters. -/
def Grid.neighbors {α : Type} [DecidableEq α] (g : Grid α) (p : Point)
    (excl incl : Option (GFilter α) := none)
    (allowOverflow : Option Bool := some false)
    (includeDiagonal : Bool := false) : List (Point × α × Direction) :=
  (p.neighborsWithDirection includeDiagonal).filterMap fun nd =>
    match g.get nd.1 none allowOverflow with
    | some v =>
        if shouldInclude nd.1 v excl incl then some (nd.1, v, nd.2)
        else none
    | none => none

/-- `Grid.__eq__` (against another grid): equality compares only the flat
data sequences. -/
def gridEqData {α : Type} [DecidableEq α] (g1 g2 : Grid α) : Bool :=
  decide (g1.data = g2.data)

/-- `Grid.__hash__`: `hash(tuple(self.data)) + hash(self.w) - hash(self.h)`.
Python's `hash` of a small nonnegative int is the int itself; the tuple hash
is abstracted as the parameter `hashData` (the claims below only ever compare
grids holding identical data, so its value never matters). -/
def gridHash {α : Type} (hashData : List α → Int) (g : Grid α) : Int :=
  hashData g.data + (g.w : Int) - (g.h : Int)

/-- A concrete stand-in for Python's tuple hash, used to instantiate
`gridHash` in concrete statements. -/
def tupleHash : List Nat → Int :=
  fun l => l.foldl (fun a x => a * 1000003 + (x : Int)) 5381

/-- Association-list lookup modelling the `predecessors` dict of
`shortest_path` (keys are inserted at the front and remain unique throughout
the search, so first-match lookup is dict lookup). -/
def plookup {β : Type} : List (Point × β) → Point → Option β
  | [], _ => none
  | (k, v) :: rest, t => if t = k then some v else plookup rest t

/-- The mutable state of the `shortest_path` BFS loop: the deque (popped at
the left, appended at the right), the `seen` set (modelled as the list of
its elements; only membership is ever queried), and the predecessor map. -/
structure BfsState where
  queue : List Point
  seen : List Point
  preds : List (Point × Option Point)

/-- The inner `for` loop of the BFS (lines 166-176): each yielded neighbor
not yet seen is marked seen, appended to the queue, and given the current
point as predecessor. -/
def pushNeighbors {α : Type} (cur : Point) :
    List (Point × α × Direction) → BfsState → BfsState
  | [], st => st
  | t :: ts, st =>
      if t.1 ∈ st.seen then pushNeighbors cur ts st
      else
        pushNeighbors cur ts
          ⟨st.queue ++ [t.1], t.1 :: st.seen, (t.1, some cur) :: st.preds⟩

/-- The `while queue:` loop of `shortest_path` (lines 161-176),
fuel-indexed: popping the target breaks out; otherwise the popped point's
passable neighbors are pushed.  A `none` models a search still running after
`fuel` iterations (the Python loop is unbounded; without overflow any search
provably terminates within `w*h + 1` iterations, while with overflow it can
run forever — see the C4 theorems). -/
def bfsLoop {α : Type} [DecidableEq α] (g : Grid α) (target : Point)
    (excl incl : Option (GFilter α)) (diag : Bool) (ao : Option Bool) :
    Nat → BfsState → Option (List (Point × Option Point))
  | _, ⟨[], _, preds⟩ => some preds
  | fuel, ⟨c :: rest, seen, preds⟩ =>
    if c = target then some preds
    else
      match fuel with
      | 0 => none
      | fuel' + 1 =>
          bfsLoop g target excl incl diag ao fuel'
            (pushNeighbors c (g.neighbors c excl incl ao diag)
              ⟨rest, seen, preds⟩)

/-- The path reconstruction of `shortest_path` (lines 183-190): walk the
predecessor chain from the target back to the point whose stored predecessor
is `None` (the source).  The Python code appends then reverses once; the
cons-accumulator used here produces the same source-to-target order.
Fuel-indexed; BFS output makes the chain provably descend inside the
predecessor list, so `preds.length + 1` fuel always suffices. -/
def backtrack : List (Point × Option Point) → Nat → Point → List Point →
    Option (List Point)
  | _, 0, _, _ => none
  | preds, fuel + 1, step, acc =>
    match plookup preds step with
    | none => none
    | some none => some (step :: acc)
    | some (some prev) => backtrack preds fuel prev (step :: acc)

/-- The observable outcome of `shortest_path`: a returned path, the raised
`Exception("No path found")`, or a search that has not terminated. -/
inductive SPResult where
  | found (path : List Point)
  | noPath
  | diverged
deriving DecidableEq, Repr

/-- `Grid.shortest_path` (lines 145-190), with source and target already
resolved to points and an explicit iteration budget `fuel` standing for the
unbounded Python loop.  The queue, seen set and predecessor map all start
from the source; after the loop, a target absent from the predecessor map
raises (`noPath`), else the path is reconstructed by backtracking. -/
def Grid.shortestPath {α : Type} [DecidableEq α] (g : Grid α)
    (source target : Point) (excl incl : Option (GFilter α) := none)
    (includeDiagonal : Bool := false) (allowOverflow : Option Bool := none)
    (fuel : Nat := g.w * g.h + 1) : SPResult :=
  match bfsLoop g target excl incl includeDiagonal allowOverflow fuel
      ⟨[source], [source], [(source, none)]⟩ with
  | none => .diverged
  | some preds =>
      match plookup preds target with
      | none => .noPath
      | some _ =>
          match backtrack preds (preds.length + 1) target [] with
          | some path => .found path
          | none => .diverged

/-- The `while queue:` loop of `Grid.reachable` (lines 207-225),
fuel-indexed, accumulating the yielded (point, steps) pairs front-first
(reversed on exit): an entry over `max_steps` is skipped without yielding or
expanding; an entry with `steps >= min_steps` is yielded; unseen neighbors
are enqueued with `steps + 1`. -/
def reachLoop {α : Type} [DecidableEq α] (g : Grid α)
    (excl incl : Option (GFilter α)) (minSteps : Nat) (maxSteps : Option Nat)
    (diag : Bool) (ao : Option Bool) :
    Nat → List (Point × Nat) → List Point → List (Point × Nat) →
      Option (List (Point × Nat))
  | _, [], _, acc => some acc.reverse
  | 0, _ :: _, _, _ => none
  | fuel + 1, (c, steps) :: rest, seen, acc =>
    if (match maxSteps with | some m => decide (m < steps) | none => false) then
      reachLoop g excl incl minSteps maxSteps diag ao fuel rest seen acc
    else
      let acc' := if minSteps ≤ steps then (c, steps) :: acc else acc
      let st := (g.neighbors c excl incl ao diag).foldl
        (fun (s : List (Point × Nat) × List Point) t =>
          if t.1 ∈ s.2 then s
          else (s.1 ++ [(t.1, steps + 1)], t.1 :: s.2))
        (rest, seen)
      reachLoop g excl incl minSteps maxSteps diag ao fuel st.1 st.2 acc'

/-- `Grid.reachable` (lines 192-225) as the list of yielded (point, steps)
pairs, fuel-indexed like `shortestPath`. -/
def Grid.reachable {α : Type} [DecidableEq α] (g : Grid α) (p : Point)
    (excl incl : Option (GFilter α) := none) (minSteps : Nat := 1)
    (maxSteps : Option Nat := none) (includeDiagonal : Bool := false)
    (allowOverflow : Option Bool := none) (fuel : Nat := g.w * g.h + 1) :
    Option (List (Point × Nat)) :=
  reachLoop g excl incl minSteps maxSteps includeDiagonal allowOverflow fuel
    [(p, 0)] [p] []

/-- One step of the passable-neighbor relation that `shortest_path` and
`reachable` search: `q` is yielded (with some value and direction) by
`neighbors(p)` under the active filters and overflow argument. -/
def Grid.stepRel {α : Type} [DecidableEq α] (g : Grid α)
    (excl incl : Option (GFilter α)) (diag : Bool) (ao : Option Bool)
    (p q : Point) : Prop :=
  ∃ v d, (q, v, d) ∈ g.neighbors p excl incl ao diag

/-- Reachability of `t` from `s` through the filtered neighbor relation. -/
def Grid.Reaches {α : Type} [DecidableEq α] (g : Grid α)
    (excl incl : Option (GFilter α)) (diag : Bool) (ao : Option Bool)
    (s t : Point) : Prop :=
  Relation.ReflTransGen (g.stepRel excl incl diag ao) s t

/-- Structural soundness of the BFS predecessor map: keys are globally
distinct, and every stored predecessor appears as a key strictly deeper in
the list (it was inserted earlier), which makes backtracking terminate. -/
def goodPreds : List (Point × Option Point) → Prop
  | [] => True
  | (q, par) :: rest =>
      q ∉ rest.map Prod.fst ∧
        (∀ c, par = some c → c ∈ rest.map Prod.fst) ∧ goodPreds rest

/-- The number of entries strictly after the (first) entry of key `t`: the
backtracking measure. -/
def keyDepth : List (Point × Option Point) → Point → Nat
  | [], _ => 0
  | (k, _) :: rest, t => if t = k then rest.length else keyDepth rest t

/-- All in-bounds points of a grid, as a list (used only to bound the size
of the BFS `seen` set). -/
def inboundsList {α : Type} (g : Grid α) : List Point :=
  genData g.h g.w fun y x => ⟨(x : Int), (y : Int)⟩

/-- The BFS loop invariant of `shortest_path`: the predecessor keys are
exactly the seen set; queued points are seen; the seen set has no duplicates,
contains only the source and in-bounds points, contains only points reachable
from the source, and is closed under the neighbor relation except at points
still queued; the predecessor map is structurally sound, maps the source to
`None`, and maps only the source to `None`. -/
structure BfsInv {α : Type} [DecidableEq α] (g : Grid α)
    (excl incl : Option (GFilter α)) (diag : Bool) (ao : Option Bool)
    (source : Point) (st : BfsState) : Prop where
  keys_seen : st.preds.map Prod.fst = st.seen
  queue_sub : ∀ q ∈ st.queue, q ∈ st.seen
  nodup : st.seen.Nodup
  inb : ∀ q ∈ st.seen, q = source ∨ g.inbounds q = true
  reach : ∀ q ∈ st.seen, g.Reaches excl incl diag ao source q
  closed : ∀ p ∈ st.seen, p ∈ st.queue ∨
      ∀ q v d, (q, v, d) ∈ g.neighbors p excl incl ao diag → q ∈ st.seen
  good : goodPreds st.preds
  src_none : plookup st.preds source = some none
  only_src_none : ∀ x, plookup st.preds x = some none → x = source

/-- An include-predicate admitting exactly the nonnegative half-line
`{(x, 0) | x >= 0}`: combined with a 1×1 `allow_overflow` grid it gives
`shortest_path` an infinite search space (every lattice point wraps to the
single cell, so only the filter prunes), on which the loop never
terminates when the target is outside the half-line. -/
def halfLine : GFilter Nat :=
  GFilter.pred fun p _ => decide (p.y = 0 ∧ 0 ≤ p.x)

/-- The `seen` set of the diverging search after `k` iterations:
`{(0,0), (1,0), ..., (k,0)}`, newest first. -/
def seenD : Nat → List Point
  | 0 => [⟨0, 0⟩]
  | k + 1 => ⟨(k : Int) + 1, 0⟩ :: seenD k

namespace Grid

variable {α : Type}

theorem inbounds_iff {g : Grid α} {p : Point} :
    g.inbounds p = true ↔
      0 ≤ p.x ∧ p.x < (g.w : Int) ∧ 0 ≤ p.y ∧ p.y < (g.h : Int) := by
  simp [inbounds, and_assoc]

/-- For an in-bounds point the modular wrap is the identity and the flat
index is the natural row-major index, so `at` reads
`data[y*w + x]` whatever the overflow argument and flag are. -/
theorem atP_inbounds {g : Grid α} {p : Point} (hp : g.inbounds p = true)
    (ao : Option Bool) : g.atP p ao = g.data.get? (g.natIdx p) := by
  obtain ⟨hx0, hxw, hy0, hyh⟩ := inbounds_iff.mp hp
  have hww : (0 : Int) < (g.w : Int) := lt_of_le_of_lt hx0 hxw
  have hxmod : p.x % (g.w : Int) = p.x := Int.emod_eq_of_lt hx0 hxw
  have hymod : p.y % (g.h : Int) = p.y := Int.emod_eq_of_lt hy0 hyh
  have hidx : (0 : Int) ≤ p.y * (g.w : Int) + p.x :=
    add_nonneg (mul_nonneg hy0 (le_of_lt hww)) hx0
  have htn : (p.y * (g.w : Int) + p.x).toNat = g.natIdx p := by
    have : p.y * (g.w : Int) + p.x = ((p.y.toNat * g.w + p.x.toNat : Nat) : Int) := by
      push_cast
      rw [Int.toNat_of_nonneg hy0, Int.toNat_of_nonneg hx0]
    rw [this, Int.toNat_natCast, natIdx]
  unfold atP
  simp only [hxmod, hymod]
  cases hb : g.overflowOf ao <;>
    simp [pyGet, hidx, htn]

theorem natIdx_lt {g : Grid α} {p : Point} (hp : g.inbounds p = true)
    (hlen : g.data.length = g.w * g.h) : g.natIdx p < g.data.length := by
  obtain ⟨hx0, hxw, hy0, hyh⟩ := inbounds_iff.mp hp
  have hx : p.x.toNat < g.w := by omega
  have hy : p.y.toNat < g.h := by omega
  have h1 : p.y.toNat * g.w + p.x.toNat < g.w * g.h := by
    calc p.y.toNat * g.w + p.x.toNat < p.y.toNat * g.w + g.w := by omega
    _ = (p.y.toNat + 1) * g.w := by ring
    _ ≤ g.h * g.w := Nat.mul_le_mul_right _ (by omega)
    _ = g.w * g.h := Nat.mul_comm _ _
  simpa [natIdx, hlen] using h1

end Grid

/-- **C1.** For every grid `G` and every in-bounds point `p`, `G.get(p)` (with
no default and no `allow_overflow` argument) returns the same element as
`G.at(p)`, regardless of the grid's `allow_overflow` flag: both are the
(present) element `data[y*w + x]`. -/
theorem claim1_get_eq_at {α : Type} (g : Grid α) (p : Point)
    (hp : g.inbounds p = true) (hlen : g.data.length = g.w * g.h) :
    g.get p none none = g.atP p none ∧ (g.atP p none).isSome := by
  constructor
  · unfold Grid.get
    rw [hp]
    simp
  · rw [Grid.atP_inbounds hp, List.get?_eq_getElem?]
    simp [List.getElem?_eq_getElem (Grid.natIdx_lt hp hlen)]

/-- **C2.** Grid construction from a flat sequence fails exactly when the
declared or inferred dimensions do not tile the data length: a positive
width `w` with no height fails iff `w` does not divide `len(data)`; giving
neither dimension fails iff `len(data)` is not a perfect square; and any
successful construction satisfies `w * h = len(data)`. -/
theorem claim2_construction_tiling {α : Type} (data : List α) (w : Nat)
    (hw : 0 < w) :
    ((mkGrid data (some w) none false).isNone ↔ ¬ w ∣ data.length)
    ∧ ((mkGrid (α := α) data none none false).isNone ↔
        ¬ ∃ r, r * r = data.length)
    ∧ (∀ (w? h? : Option Nat) (ao : Bool) (g : Grid α),
        mkGrid data w? h? ao = some g → g.w * g.h = data.length) := by
  refine ⟨?_, ?_, ?_⟩
  · have hw0 : ¬ w = 0 := by omega
    simp only [mkGrid, inferDims, if_neg hw0]
    by_cases hdvd : w ∣ data.length
    · rw [if_pos (Nat.mul_div_cancel' hdvd)]
      simp [hdvd]
    · have : ¬ w * (data.length / w) = data.length := by
        intro hEq
        exact hdvd ⟨data.length / w, hEq.symm⟩
      rw [if_neg this]
      simp [hdvd]
  · simp only [mkGrid, inferDims]
    rw [show (∃ r, r * r = data.length) ↔
        Nat.sqrt data.length * Nat.sqrt data.length = data.length from
      Nat.exists_mul_self data.length]
    by_cases hsq : Nat.sqrt data.length * Nat.sqrt data.length = data.length
    · rw [if_pos hsq]; simp [hsq]
    · rw [if_neg hsq]; simp [hsq]
  · intro w? h? ao g hmk
    unfold mkGrid at hmk
    split at hmk
    · exact absurd hmk (by simp)
    · split at hmk
      · rename_i hTile
        cases hmk
        simpa using hTile
      · exact absurd hmk (by simp)

/-- Witness for C2 with `data = [0,1,2,3,4,5]` and `w = 4` (which does not
divide 6, so that branch of the conjunction is inhabited non-vacuously). -/
theorem claim2_construction_tiling_witness :
    ((mkGrid [0, 1, 2, 3, 4, 5] (some 4) none false).isNone ↔
        ¬ 4 ∣ ([0, 1, 2, 3, 4, 5] : List Nat).length)
    ∧ ((mkGrid ([0, 1, 2, 3, 4, 5] : List Nat) none none false).isNone ↔
        ¬ ∃ r, r * r = ([0, 1, 2, 3, 4, 5] : List Nat).length)
    ∧ (∀ (w? h? : Option Nat) (ao : Bool) (g : Grid Nat),
        mkGrid [0, 1, 2, 3, 4, 5] w? h? ao = some g →
          g.w * g.h = ([0, 1, 2, 3, 4, 5] : List Nat).length) :=
  claim2_construction_tiling [0, 1, 2, 3, 4, 5] 4 (by decide)

/-- Witness for C1 on a concrete 2×3 grid and the point (1, 0). -/
theorem claim1_get_eq_at_witness :
    (Grid.mk 2 3 [10, 20, 30, 40, 50, 60] true).get ⟨1, 0⟩ none none =
        (Grid.mk 2 3 [10, 20, 30, 40, 50, 60] true).atP ⟨1, 0⟩ none ∧
      ((Grid.mk 2 3 [10, 20, 30, 40, 50, 60] true).atP ⟨1, 0⟩ none).isSome :=
  claim1_get_eq_at (Grid.mk 2 3 [10, 20, 30, 40, 50, 60] true) ⟨1, 0⟩
    (by decide) (by decide)

theorem genData_eq_map_range {α : Type} (m n : Nat) (f : Nat → Nat → α) :
    genData m n f = (List.range (m * n)).map fun k => f (k / n) (k % n) := by
  induction m with
  | zero => simp [genData]
  | succ m ih =>
    rw [genData, List.range_succ, List.flatMap_append, ← genData,
      List.flatMap_cons, List.flatMap_nil, List.append_nil, ih,
      Nat.succ_mul, List.range_add, List.map_append, List.map_map]
    congr 1
    apply List.map_congr_left
    intro j hj
    rw [List.mem_range] at hj
    have hn : 0 < n := by omega
    simp only [Function.comp_apply]
    rw [show m * n + j = n * m + j by ring, Nat.mul_add_div hn,
      Nat.mul_add_mod, Nat.div_eq_of_lt hj, Nat.mod_eq_of_lt hj,
      Nat.add_zero]

theorem genData_length {α : Type} (m n : Nat) (f : Nat → Nat → α) :
    (genData m n f).length = m * n := by
  rw [genData_eq_map_range]
  simp

theorem genData_getElem? {α : Type} {m n i j : Nat} (f : Nat → Nat → α)
    (hi : i < m) (hj : j < n) :
    (genData m n f)[i * n + j]? = some (f i j) := by
  have hn : 0 < n := by omega
  have hk : i * n + j < m * n := by
    calc i * n + j < i * n + n := by omega
    _ = (i + 1) * n := by ring
    _ ≤ m * n := Nat.mul_le_mul_right _ (by omega)
  rw [genData_eq_map_range, List.getElem?_map, List.getElem?_range hk]
  show some (f ((i * n + j) / n) ((i * n + j) % n)) = some (f i j)
  rw [show i * n + j = n * i + j by ring, Nat.mul_add_div hn,
    Nat.mul_add_mod, Nat.div_eq_of_lt hj, Nat.mod_eq_of_lt hj,
    Nat.add_zero]

theorem getD_genData {α : Type} [Inhabited α] {m n i j : Nat}
    (f : Nat → Nat → α) (hi : i < m) (hj : j < n) :
    (genData m n f).getD (i * n + j) default = f i j := by
  rw [List.getD_eq_getElem?_getD, genData_getElem? f hi hj]
  rfl

theorem genData_congr {α : Type} {m n : Nat} {f f' : Nat → Nat → α}
    (h : ∀ i < m, ∀ j < n, f i j = f' i j) :
    genData m n f = genData m n f' := by
  rw [genData_eq_map_range, genData_eq_map_range]
  apply List.map_congr_left
  intro k hk
  rw [List.mem_range] at hk
  have hn : 0 < n := by
    rcases Nat.eq_zero_or_pos n with h0 | h0
    · subst h0
      simp at hk
    · exact h0
  have hk' : k < n * m := by rw [Nat.mul_comm]; exact hk
  exact h _ (Nat.div_lt_of_lt_mul hk') _ (Nat.mod_lt _ hn)

/-- A well-formed grid's data is recovered row by row from its cells. -/
theorem genData_cellD {α : Type} [Inhabited α] (g : Grid α)
    (hlen : g.data.length = g.w * g.h) :
    genData g.h g.w (fun r c => g.cellD r c) = g.data := by
  apply List.ext_getElem?
  intro k
  rw [genData_eq_map_range, List.getElem?_map]
  by_cases hk : k < g.h * g.w
  · rw [List.getElem?_range hk]
    have hkl : k < g.data.length := by rw [hlen, Nat.mul_comm]; exact hk
    rw [List.getElem?_eq_getElem hkl]
    show some (g.cellD (k / g.w) (k % g.w)) = some g.data[k]
    unfold Grid.cellD
    rw [Nat.div_add_mod', List.getD_eq_getElem _ _ hkl]
  · rw [List.getElem?_eq_none (by simp only [List.length_range]; omega),
      List.getElem?_eq_none (by rw [hlen, Nat.mul_comm]; omega)]
    rfl

theorem reverse_map_range {α : Type} (n : Nat) (f : Nat → α) :
    ((List.range n).map f).reverse = (List.range n).map fun j => f (n - 1 - j) := by
  apply List.ext_getElem
  · simp
  · intro i h1 h2
    rw [List.getElem_reverse]
    simp only [List.getElem_map, List.getElem_range, List.length_map,
      List.length_range]

theorem Grid.cols_flatten {α : Type} [Inhabited α] (g : Grid α) :
    g.cols.flatten = genData g.w g.h (fun c r => g.cellD r c) := by
  rw [Grid.cols, genData, ← List.flatMap_def]

theorem Grid.rev_cols_flatten {α : Type} [Inhabited α] (g : Grid α) :
    (g.cols.map List.reverse).flatten =
      genData g.w g.h (fun c r => g.cellD (g.h - 1 - r) c) := by
  rw [Grid.cols, List.map_map, ← List.flatMap_def, genData]
  congr 1
  funext c
  exact reverse_map_range g.h fun r => g.cellD r c

theorem Grid.transpose_eq {α : Type} [Inhabited α] (g : Grid α)
    (hw : 0 < g.w) : g.transpose = some g.transResult := by
  have hW : ¬ g.w = 0 := by omega
  unfold Grid.transpose mkGrid inferDims Grid.transResult
  rw [Grid.cols_flatten]
  simp [hW, genData_length, Nat.mul_comm g.h g.w]

theorem Grid.rotate_eq {α : Type} [Inhabited α] (g : Grid α)
    (hw : 0 < g.w) : g.rotate = some g.rotResult := by
  have hW : ¬ g.w = 0 := by omega
  unfold Grid.rotate mkGrid inferDims Grid.rotResult
  rw [Grid.rev_cols_flatten]
  simp [hW, genData_length, Nat.mul_comm g.h g.w]

theorem Grid.cellD_transResult {α : Type} [Inhabited α] (g : Grid α)
    {a b : Nat} (ha : a < g.w) (hb : b < g.h) :
    g.transResult.cellD a b = g.cellD b a := by
  show (genData g.w g.h (fun c r => g.cellD r c)).getD (a * g.h + b) default
      = g.cellD b a
  exact getD_genData _ ha hb

theorem Grid.cellD_rotResult {α : Type} [Inhabited α] (g : Grid α)
    {a b : Nat} (ha : a < g.w) (hb : b < g.h) :
    g.rotResult.cellD a b = g.cellD (g.h - 1 - b) a := by
  show (genData g.w g.h (fun c r => g.cellD (g.h - 1 - r) c)).getD
      (a * g.h + b) default = g.cellD (g.h - 1 - b) a
  exact getD_genData _ ha hb

theorem Grid.atP_eq_cellD {α : Type} [Inhabited α] {g : Grid α} {p : Point}
    (hp : g.inbounds p = true) (hlen : g.data.length = g.w * g.h)
    (ao : Option Bool) : g.atP p ao = some (g.cellD p.y.toNat p.x.toNat) := by
  have hk := Grid.natIdx_lt hp hlen
  rw [Grid.atP_inbounds hp ao, List.get?_eq_getElem?,
    List.getElem?_eq_getElem hk]
  unfold Grid.cellD
  rw [List.getD_eq_getElem _ _ (by exact hk)]
  rfl

/-- **C6.** For every (well-formed, positively sized) grid `G`, `transpose()`
returns a grid with width `G.h` and height `G.w` whose element at (x, y)
equals `G`'s element at (y, x), and transposing twice reconstructs a grid
with the same flat data and the same dimensions as `G`. -/
theorem claim6_transpose {α : Type} [Inhabited α] (g : Grid α)
    (hw : 0 < g.w) (hh : 0 < g.h) (hlen : g.data.length = g.w * g.h) :
    ∃ gt gtt : Grid α,
      g.transpose = some gt ∧ gt.w = g.h ∧ gt.h = g.w ∧
      (∀ p : Point, gt.inbounds p = true →
        gt.atP p none = g.atP ⟨p.y, p.x⟩ none) ∧
      gt.transpose = some gtt ∧ gtt.data = g.data ∧ gtt.w = g.w ∧
      gtt.h = g.h := by
  have hlen_t : g.transResult.data.length = g.transResult.w * g.transResult.h := by
    show (genData g.w g.h _).length = g.h * g.w
    rw [genData_length, Nat.mul_comm]
  refine ⟨g.transResult, g.transResult.transResult, Grid.transpose_eq g hw,
    rfl, rfl, ?_, Grid.transpose_eq g.transResult (by exact hh), ?_, rfl, rfl⟩
  · intro p hp
    have hb := Grid.inbounds_iff.mp hp
    have hxg : p.x < (g.h : Int) := hb.2.1
    have hyg : p.y < (g.w : Int) := hb.2.2.2
    have hp' : g.inbounds (⟨p.y, p.x⟩ : Point) = true := by
      rw [Grid.inbounds_iff]
      exact ⟨hb.2.2.1, hyg, hb.1, hxg⟩
    rw [Grid.atP_eq_cellD hp hlen_t none, Grid.atP_eq_cellD hp' hlen none]
    show some (g.transResult.cellD p.y.toNat p.x.toNat) = _
    rw [Grid.cellD_transResult g (by omega) (by omega)]
  · calc g.transResult.transResult.data
        = genData g.h g.w (fun c r => g.transResult.cellD r c) := rfl
      _ = genData g.h g.w (fun c r => g.cellD c r) := by
          apply genData_congr
          intro i hi j hj
          exact Grid.cellD_transResult g hj hi
      _ = g.data := genData_cellD g hlen

/-- Witness for C6 on a concrete 2×3 grid. -/
theorem claim6_transpose_witness :
    ∃ gt gtt : Grid Nat,
      (Grid.mk 3 2 [1, 2, 3, 4, 5, 6] false).transpose = some gt ∧
      gt.w = 2 ∧ gt.h = 3 ∧
      (∀ p : Point, gt.inbounds p = true →
        gt.atP p none =
          (Grid.mk 3 2 [1, 2, 3, 4, 5, 6] false).atP ⟨p.y, p.x⟩ none) ∧
      gt.transpose = some gtt ∧ gtt.data = [1, 2, 3, 4, 5, 6] ∧
      gtt.w = 3 ∧ gtt.h = 2 :=
  claim6_transpose (Grid.mk 3 2 [1, 2, 3, 4, 5, 6] false)
    (by decide) (by decide) (by decide)

/-- **C7.** For every (well-formed, positively sized) grid `G`, applying
`rotate()` four times returns a grid with the same flat data and the same
dimensions as `G`. -/
theorem claim7_rotate_four {α : Type} [Inhabited α] (g : Grid α)
    (hw : 0 < g.w) (hh : 0 < g.h) (hlen : g.data.length = g.w * g.h) :
    ∃ g4 : Grid α,
      ((g.rotate.bind Grid.rotate).bind Grid.rotate).bind Grid.rotate =
          some g4 ∧
        g4.data = g.data ∧ g4.w = g.w ∧ g4.h = g.h := by
  have hcell2 : ∀ (G : Grid α), 0 < G.w → ∀ a b : Nat, a < G.h → b < G.w →
      G.rotResult.rotResult.cellD a b =
        G.cellD (G.h - 1 - a) (G.w - 1 - b) := by
    intro G hGw a b ha hb
    rw [Grid.cellD_rotResult G.rotResult (show a < G.rotResult.w from ha)
        (show b < G.rotResult.h from hb)]
    rw [show G.rotResult.h - 1 - b = G.w - 1 - b from rfl]
    rw [Grid.cellD_rotResult G (show G.w - 1 - b < G.w by omega) ha]
  refine ⟨g.rotResult.rotResult.rotResult.rotResult, ?_, ?_, rfl, rfl⟩
  · rw [Grid.rotate_eq g hw, Option.some_bind,
      Grid.rotate_eq g.rotResult (show 0 < g.h from hh), Option.some_bind,
      Grid.rotate_eq g.rotResult.rotResult (show 0 < g.w from hw),
      Option.some_bind,
      Grid.rotate_eq g.rotResult.rotResult.rotResult (show 0 < g.h from hh)]
  · have hlen4 : g.rotResult.rotResult.rotResult.rotResult.data.length =
        g.rotResult.rotResult.rotResult.rotResult.w *
          g.rotResult.rotResult.rotResult.rotResult.h := by
      show (genData g.h g.w _).length = g.w * g.h
      rw [genData_length, Nat.mul_comm]
    calc g.rotResult.rotResult.rotResult.rotResult.data
        = genData g.h g.w
            (fun r c => g.rotResult.rotResult.rotResult.rotResult.cellD r c) := by
          exact (genData_cellD _ hlen4).symm
      _ = genData g.h g.w (fun r c => g.cellD r c) := by
          apply genData_congr
          intro i hi j hj
          rw [hcell2 g.rotResult.rotResult (show 0 < g.w from hw) i j
              (show i < g.h from hi) (show j < g.w from hj)]
          rw [show g.rotResult.rotResult.h - 1 - i = g.h - 1 - i from rfl,
            show g.rotResult.rotResult.w - 1 - j = g.w - 1 - j from rfl]
          rw [hcell2 g hw (g.h - 1 - i) (g.w - 1 - j) (by omega) (by omega)]
          congr 1 <;> omega
      _ = g.data := genData_cellD g hlen

/-- Witness for C7 on a concrete 2×3 grid. -/
theorem claim7_rotate_four_witness :
    ∃ g4 : Grid Nat,
      (((Grid.mk 3 2 [1, 2, 3, 4, 5, 6] false).rotate.bind
            Grid.rotate).bind Grid.rotate).bind Grid.rotate = some g4 ∧
        g4.data = [1, 2, 3, 4, 5, 6] ∧ g4.w = 3 ∧ g4.h = 2 :=
  claim7_rotate_four (Grid.mk 3 2 [1, 2, 3, 4, 5, 6] false)
    (by decide) (by decide) (by decide)

theorem Grid.intIdx_toNat {α : Type} {g : Grid α} {p : Point}
    (hp : g.inbounds p = true) :
    (p.y * (g.w : Int) + p.x).toNat = g.natIdx p := by
  obtain ⟨hx0, hxw, hy0, hyh⟩ := Grid.inbounds_iff.mp hp
  have hcast : p.y * (g.w : Int) + p.x =
      ((p.y.toNat * g.w + p.x.toNat : Nat) : Int) := by
    push_cast
    rw [Int.toNat_of_nonneg hy0, Int.toNat_of_nonneg hx0]
  rw [hcast, Int.toNat_natCast, Grid.natIdx]

theorem Grid.natIdx_inj {α : Type} {g : Grid α} {p q : Point}
    (hp : g.inbounds p = true) (hq : g.inbounds q = true)
    (hIdx : g.natIdx p = g.natIdx q) : p = q := by
  obtain ⟨hx0, hxw, hy0, hyh⟩ := Grid.inbounds_iff.mp hp
  obtain ⟨hx0', hxw', hy0', hyh'⟩ := Grid.inbounds_iff.mp hq
  have hxp : p.x.toNat < g.w := by omega
  have hxq : q.x.toNat < g.w := by omega
  have hwpos : 0 < g.w := by omega
  unfold Grid.natIdx at hIdx
  have hIdx' : g.w * p.y.toNat + p.x.toNat = g.w * q.y.toNat + q.x.toNat := by
    rw [Nat.mul_comm g.w p.y.toNat, Nat.mul_comm g.w q.y.toNat]
    exact hIdx
  have h1 : (g.w * p.y.toNat + p.x.toNat) % g.w = p.x.toNat := by
    rw [Nat.mul_add_mod, Nat.mod_eq_of_lt hxp]
  have h2 : (g.w * q.y.toNat + q.x.toNat) % g.w = q.x.toNat := by
    rw [Nat.mul_add_mod, Nat.mod_eq_of_lt hxq]
  have hx : p.x.toNat = q.x.toNat := by rw [← h1, ← h2, hIdx']
  have hy : p.y.toNat = q.y.toNat := by
    have h3 : p.y.toNat * g.w = q.y.toNat * g.w := by omega
    exact Nat.eq_of_mul_eq_mul_right hwpos h3
  have hxe : p.x = q.x := by omega
  have hye : p.y = q.y := by omega
  calc p = ⟨p.x, p.y⟩ := rfl
    _ = ⟨q.x, q.y⟩ := by rw [hxe, hye]
    _ = q := rfl

/-- **C8.** With overflow not in effect, `replace(p, value)` on an
out-of-bounds point leaves the grid entirely unchanged (and does not fail),
and on an in-bounds point it sets the cell at `p` to `value` (observable via
`at(p)`) while leaving every other cell and the dimensions unchanged. -/
theorem claim8_replace {α : Type} (g : Grid α) (p : Point) (v : α)
    (hlen : g.data.length = g.w * g.h) (hflag : g.allow_overflow = false) :
    (g.inbounds p = false → g.replace p v none = g) ∧
    (g.inbounds p = true →
      (g.replace p v none).w = g.w ∧ (g.replace p v none).h = g.h ∧
      (g.replace p v none).atP p none = some v ∧
      ∀ q : Point, g.inbounds q = true → q ≠ p →
        (g.replace p v none).atP q none = g.atP q none) := by
  have hov : g.overflowOf none = false := hflag
  constructor
  · intro hob
    unfold Grid.replace
    rw [hov]
    simp only [Bool.false_eq_true, if_false]
    rw [if_pos]
    unfold Grid.get
    rw [hob, hov]
    simp
  · intro hin
    have hnone : (g.get p none none).isNone = false := by
      have hget : g.get p none none = g.atP p none := by
        unfold Grid.get
        rw [hin]
        simp
      rw [hget, Grid.atP_inbounds hin, List.get?_eq_getElem?,
        List.getElem?_eq_getElem (Grid.natIdx_lt hin hlen)]
      rfl
    have hrepl : g.replace p v none =
        { g with data := g.data.set (g.natIdx p) v } := by
      unfold Grid.replace
      rw [hov]
      simp only [Bool.false_eq_true, if_false, hnone, Grid.intIdx_toNat hin]
    rw [hrepl]
    set g' : Grid α := { g with data := g.data.set (g.natIdx p) v } with hg'
    have hin' : g'.inbounds p = true := hin
    have hlt := Grid.natIdx_lt hin hlen
    refine ⟨rfl, rfl, ?_, ?_⟩
    · rw [Grid.atP_inbounds hin' none]
      show (g.data.set (g.natIdx p) v).get? (g.natIdx p) = some v
      rw [List.get?_eq_getElem?, List.getElem?_set]
      simp [hlt]
    · intro q hq hqp
      have hq' : g'.inbounds q = true := hq
      rw [Grid.atP_inbounds hq' none, Grid.atP_inbounds hq none]
      show (g.data.set (g.natIdx p) v).get? (g.natIdx q) = g.data.get? (g.natIdx q)
      rw [List.get?_eq_getElem?, List.get?_eq_getElem?, List.getElem?_set]
      rw [if_neg]
      intro hEq
      exact hqp (Grid.natIdx_inj hq hin hEq.symm)

/-- Witness for C8 on a concrete 2×2 grid with the in-bounds point (0, 1)
(the out-of-bounds branch is then exercised vacuously but the statement's
in-bounds branch is fully concrete). -/
theorem claim8_replace_witness :
    ((Grid.mk 2 2 [1, 2, 3, 4] false).inbounds ⟨0, 1⟩ = false →
      (Grid.mk 2 2 [1, 2, 3, 4] false).replace ⟨0, 1⟩ 9 none =
        Grid.mk 2 2 [1, 2, 3, 4] false) ∧
    ((Grid.mk 2 2 [1, 2, 3, 4] false).inbounds ⟨0, 1⟩ = true →
      ((Grid.mk 2 2 [1, 2, 3, 4] false).replace ⟨0, 1⟩ 9 none).w = 2 ∧
      ((Grid.mk 2 2 [1, 2, 3, 4] false).replace ⟨0, 1⟩ 9 none).h = 2 ∧
      ((Grid.mk 2 2 [1, 2, 3, 4] false).replace ⟨0, 1⟩ 9 none).atP ⟨0, 1⟩ none =
        some 9 ∧
      ∀ q : Point, (Grid.mk 2 2 [1, 2, 3, 4] false).inbounds q = true →
        q ≠ ⟨0, 1⟩ →
        ((Grid.mk 2 2 [1, 2, 3, 4] false).replace ⟨0, 1⟩ 9 none).atP q none =
          (Grid.mk 2 2 [1, 2, 3, 4] false).atP q none) :=
  claim8_replace (Grid.mk 2 2 [1, 2, 3, 4] false) ⟨0, 1⟩ 9
    (by decide) (by decide)

/-- **C9 counterexample.** Two grids over the same flat data but with swapped
dimensions (2×3 vs 3×2) are equal under `__eq__` (which compares only the
data), yet their hashes differ: the hash mixes in `w` and `h` asymmetrically
(`+ hash(w) - hash(h)`), so equality does NOT imply hash equality. -/
theorem claim9_hash_counterexample :
    gridEqData (Grid.mk 2 3 [0, 1, 2, 3, 4, 5] false)
        (Grid.mk 3 2 [0, 1, 2, 3, 4, 5] false) = true ∧
      gridHash tupleHash (Grid.mk 2 3 [0, 1, 2, 3, 4, 5] false) ≠
        gridHash tupleHash (Grid.mk 3 2 [0, 1, 2, 3, 4, 5] false) := by
  constructor
  · rfl
  · decide

/-- **C9 (amended).** Equality of the flat data alone does not determine the
hash; but for grids with equal data AND equal width and height, the hashes
agree — this is the consistency that actually holds, for any model of the
tuple hash. -/
theorem claim9_hash_amended {α : Type} [DecidableEq α]
    (hashData : List α → Int) (g1 g2 : Grid α)
    (heq : gridEqData g1 g2 = true) (hw : g1.w = g2.w) (hh : g1.h = g2.h) :
    gridHash hashData g1 = gridHash hashData g2 := by
  unfold gridEqData at heq
  rw [decide_eq_true_iff] at heq
  unfold gridHash
  rw [heq, hw, hh]

/-- Witness for the amended C9 on two concrete equal grids. -/
theorem claim9_hash_amended_witness :
    gridHash tupleHash (Grid.mk 2 2 [7, 8, 9, 10] false) =
      gridHash tupleHash (Grid.mk 2 2 [7, 8, 9, 10] true) :=
  claim9_hash_amended tupleHash (Grid.mk 2 2 [7, 8, 9, 10] false)
    (Grid.mk 2 2 [7, 8, 9, 10] true) (by decide) rfl rfl

/-- **C10.** On a grid constructed with `allow_overflow=True`, calling
`neighbors(p)` without an `allow_overflow` argument does not wrap
coordinates: the parameter defaults to `False` rather than inheriting the
grid-level flag, so only in-bounds neighbors are ever yielded — while the
`None` default that `at`/`get`/`replace` pass through `_allow_overflow`
resolves to the grid flag `True`. -/
theorem claim10_neighbors_default {α : Type} [DecidableEq α]
    (g : Grid α) (p : Point) (hflag : g.allow_overflow = true) :
    (∀ q : Point, ∀ v : α, ∀ d : Direction,
        (q, v, d) ∈ g.neighbors p none none (some false) false →
          g.inbounds q = true) ∧
      g.overflowOf none = true := by
  refine ⟨?_, hflag⟩
  intro q v d hmem
  unfold Grid.neighbors at hmem
  rw [List.mem_filterMap] at hmem
  obtain ⟨nd, _, hres⟩ := hmem
  by_cases hin : g.inbounds nd.1 = true
  · rcases hget : g.get nd.1 none (some false) with _ | v'
    · rw [hget] at hres
      exact absurd hres (by simp)
    · rw [hget] at hres
      split at hres
      · cases hres
        exact hin
      · exact absurd hres (by simp)
  · have hget : g.get nd.1 none (some false) = none := by
      unfold Grid.get
      rw [Bool.of_not_eq_true hin]
      simp [Grid.overflowOf]
    rw [hget] at hres
    exact absurd hres (by simp)

/-- Witness for C10 on a concrete 2×2 overflow grid and the corner (0, 0). -/
theorem claim10_neighbors_default_witness :
    (∀ q : Point, ∀ v : Nat, ∀ d : Direction,
        (q, v, d) ∈ (Grid.mk 2 2 [1, 2, 3, 4] true).neighbors ⟨0, 0⟩ none none
            (some false) false →
          (Grid.mk 2 2 [1, 2, 3, 4] true).inbounds q = true) ∧
      (Grid.mk 2 2 [1, 2, 3, 4] true).overflowOf none = true :=
  claim10_neighbors_default (Grid.mk 2 2 [1, 2, 3, 4] true) ⟨0, 0⟩ rfl

/-- **C3.** On a 3×3 grid of all-passable cells (no filters), `shortest_path`
from (0,0) to (2,2) without diagonals returns exactly 5 points starting at
(0,0) and ending at (2,2); with diagonals, exactly 3 points. -/
theorem claim3_shortest_path_3x3 :
    (Grid.mk 3 3 (List.replicate 9 0) false).shortestPath ⟨0, 0⟩ ⟨2, 2⟩
        none none false none 10 =
      SPResult.found [⟨0, 0⟩, ⟨0, 1⟩, ⟨0, 2⟩, ⟨1, 2⟩, ⟨2, 2⟩] ∧
    (Grid.mk 3 3 (List.replicate 9 0) false).shortestPath ⟨0, 0⟩ ⟨2, 2⟩
        none none true none 10 =
      SPResult.found [⟨0, 0⟩, ⟨1, 1⟩, ⟨2, 2⟩] ∧
    ([⟨0, 0⟩, ⟨0, 1⟩, ⟨0, 2⟩, ⟨1, 2⟩, ⟨2, 2⟩] : List Point).length = 5 ∧
    ([⟨0, 0⟩, ⟨1, 1⟩, ⟨2, 2⟩] : List Point).length = 3 :=
  ⟨rfl, rfl, rfl, rfl⟩

/-- **C5.** On the all-passable 3×3 grid,
`reachable((1,1), max_steps=1, include_diagonal=False)` yields exactly the
four orthogonal neighbors of (1,1), each paired with step count 1, each
exactly once, and never the starting point (1,1) itself. -/
theorem claim5_reachable_3x3 :
    (Grid.mk 3 3 (List.replicate 9 0) false).reachable ⟨1, 1⟩ none none 1
        (some 1) false none 20 =
      some [(⟨1, 0⟩, 1), (⟨1, 2⟩, 1), (⟨0, 1⟩, 1), (⟨2, 1⟩, 1)] ∧
    ([⟨1, 0⟩, ⟨1, 2⟩, ⟨0, 1⟩, ⟨2, 1⟩] : List Point).Nodup ∧
    (⟨1, 1⟩ : Point) ∉ ([⟨1, 0⟩, ⟨1, 2⟩, ⟨0, 1⟩, ⟨2, 1⟩] : List Point) :=
  ⟨rfl, by decide, by decide⟩

theorem plookup_mem {β : Type} {l : List (Point × β)} {t : Point} {v : β}
    (h : plookup l t = some v) : t ∈ l.map Prod.fst := by
  induction l with
  | nil => simp [plookup] at h
  | cons e rest ih =>
    obtain ⟨k, w⟩ := e
    simp only [plookup] at h
    by_cases he : t = k
    · simp [he]
    · rw [if_neg he] at h
      simp only [List.map_cons, List.mem_cons]
      exact Or.inr (ih h)

theorem plookup_of_mem {β : Type} {l : List (Point × β)} {t : Point}
    (h : t ∈ l.map Prod.fst) : ∃ v, plookup l t = some v := by
  induction l with
  | nil => simp at h
  | cons e rest ih =>
    obtain ⟨k, w⟩ := e
    simp only [plookup]
    by_cases he : t = k
    · rw [if_pos he]
      exact ⟨w, rfl⟩
    · rw [if_neg he]
      apply ih
      simp only [List.map_cons, List.mem_cons] at h
      tauto

theorem Grid.mem_neighbors {α : Type} [DecidableEq α] {g : Grid α}
    {p q : Point} {v : α} {d : Direction}
    {excl incl : Option (GFilter α)} {diag : Bool} {ao : Option Bool} :
    (q, v, d) ∈ g.neighbors p excl incl ao diag ↔
      (q, d) ∈ p.neighborsWithDirection diag ∧
        g.get q none ao = some v ∧ shouldInclude q v excl incl = true := by
  unfold Grid.neighbors
  rw [List.mem_filterMap]
  constructor
  · rintro ⟨nd, hnd, hres⟩
    obtain ⟨n1, n2⟩ := nd
    rcases hget : g.get n1 none ao with _ | v'
    · rw [hget] at hres
      simp at hres
    · rw [hget] at hres
      dsimp only at hres
      by_cases hsi : shouldInclude n1 v' excl incl = true
      · rw [if_pos hsi] at hres
        have hres' : n1 = q ∧ v' = v ∧ n2 = d := by simpa using hres
        obtain ⟨h1, h2, h3⟩ := hres'
        subst h1; subst h2; subst h3
        exact ⟨hnd, hget, hsi⟩
      · rw [if_neg hsi] at hres
        simp at hres
  · rintro ⟨hnd, hget, hsi⟩
    refine ⟨(q, d), hnd, ?_⟩
    simp only [hget, hsi, if_true]

theorem Grid.mem_neighbors_inbounds {α : Type} [DecidableEq α] {g : Grid α}
    {p q : Point} {v : α} {d : Direction}
    {excl incl : Option (GFilter α)} {diag : Bool} {ao : Option Bool}
    (hov : g.overflowOf ao = false)
    (hmem : (q, v, d) ∈ g.neighbors p excl incl ao diag) :
    g.inbounds q = true := by
  obtain ⟨-, hget, -⟩ := Grid.mem_neighbors.mp hmem
  by_cases hin : g.inbounds q = true
  · exact hin
  · rw [Bool.not_eq_true] at hin
    unfold Grid.get at hget
    rw [hin, hov] at hget
    simp at hget

theorem pushNeighbors_seen_mono {α : Type} (cur : Point)
    (ns : List (Point × α × Direction)) :
    ∀ (st : BfsState) (x : Point), x ∈ st.seen →
      x ∈ (pushNeighbors cur ns st).seen := by
  induction ns with
  | nil => intro st x h; exact h
  | cons t ts ih =>
    intro st x h
    simp only [pushNeighbors]
    split
    · exact ih st x h
    · exact ih _ x (List.mem_cons_of_mem _ h)

theorem pushNeighbors_seen_of {α : Type} (cur : Point)
    (ns : List (Point × α × Direction)) :
    ∀ (st : BfsState) (x : Point), x ∈ (pushNeighbors cur ns st).seen →
      x ∈ st.seen ∨ x ∈ ns.map (fun t => t.1) := by
  induction ns with
  | nil => intro st x h; exact Or.inl h
  | cons t ts ih =>
    intro st x h
    simp only [pushNeighbors] at h
    split at h
    · rcases ih st x h with h' | h'
      · exact Or.inl h'
      · exact Or.inr (by simpa using Or.inr (by simpa using h'))
    · rcases ih _ x h with h' | h'
      · rcases List.mem_cons.mp h' with h'' | h''
        · exact Or.inr (by simp [h''])
        · exact Or.inl h''
      · exact Or.inr (by simpa using Or.inr (by simpa using h'))

theorem pushNeighbors_mem_seen {α : Type} (cur : Point)
    (ns : List (Point × α × Direction)) :
    ∀ (st : BfsState), ∀ t ∈ ns, t.1 ∈ (pushNeighbors cur ns st).seen := by
  induction ns with
  | nil => intro st t h; simp at h
  | cons t' ts ih =>
    intro st t ht
    simp only [pushNeighbors]
    rcases List.mem_cons.mp ht with h | h
    · subst h
      split
      · rename_i hm
        exact pushNeighbors_seen_mono cur ts st t.1 hm
      · exact pushNeighbors_seen_mono cur ts _ t.1 (List.mem_cons_self _ _)
    · split
      · exact ih st t h
      · exact ih _ t h

theorem pushNeighbors_queue_mono {α : Type} (cur : Point)
    (ns : List (Point × α × Direction)) :
    ∀ (st : BfsState) (q : Point), q ∈ st.queue →
      q ∈ (pushNeighbors cur ns st).queue := by
  induction ns with
  | nil => intro st q h; exact h
  | cons t ts ih =>
    intro st q h
    simp only [pushNeighbors]
    split
    · exact ih st q h
    · exact ih _ q (List.mem_append_left _ h)

theorem pushNeighbors_queue_of {α : Type} (cur : Point)
    (ns : List (Point × α × Direction)) :
    ∀ (st : BfsState) (q : Point), q ∈ (pushNeighbors cur ns st).queue →
      q ∈ st.queue ∨ q ∈ ns.map (fun t => t.1) := by
  induction ns with
  | nil => intro st q h; exact Or.inl h
  | cons t ts ih =>
    intro st q h
    simp only [pushNeighbors] at h
    split at h
    · rcases ih st q h with h' | h'
      · exact Or.inl h'
      · exact Or.inr (by simpa using Or.inr (by simpa using h'))
    · rcases ih _ q h with h' | h'
      · rcases List.mem_append.mp h' with h'' | h''
        · exact Or.inl h''
        · simp only [List.mem_singleton] at h''
          exact Or.inr (by simp [h''])
      · exact Or.inr (by simpa using Or.inr (by simpa using h'))

theorem pushNeighbors_new_in_queue {α : Type} (cur : Point)
    (ns : List (Point × α × Direction)) :
    ∀ (st : BfsState) (x : Point), x ∈ (pushNeighbors cur ns st).seen →
      x ∉ st.seen → x ∈ (pushNeighbors cur ns st).queue := by
  induction ns with
  | nil => intro st x h hn; exact absurd h hn
  | cons t ts ih =>
    intro st x h hn
    simp only [pushNeighbors] at h ⊢
    split at h
    · rename_i hm
      rw [if_pos hm]
      exact ih st x h hn
    · rename_i hm
      rw [if_neg hm]
      by_cases hx : x = t.1
      · subst hx
        exact pushNeighbors_queue_mono cur ts _ t.1
          (List.mem_append_right _ (List.mem_singleton_self _))
      · refine ih _ x h ?_
        simp only [List.mem_cons]
        rintro (h' | h')
        · exact hx h'
        · exact hn h'

theorem pushNeighbors_queue_sub {α : Type} (cur : Point)
    (ns : List (Point × α × Direction)) :
    ∀ (st : BfsState), (∀ q ∈ st.queue, q ∈ st.seen) →
      ∀ q ∈ (pushNeighbors cur ns st).queue,
        q ∈ (pushNeighbors cur ns st).seen := by
  induction ns with
  | nil => intro st h q hq; exact h q hq
  | cons t ts ih =>
    intro st h q hq
    simp only [pushNeighbors] at hq ⊢
    split at hq
    · rename_i hm
      rw [if_pos hm]
      exact ih st h q hq
    · rename_i hm
      rw [if_neg hm]
      refine ih _ ?_ q hq
      intro r hr
      rcases List.mem_append.mp hr with h' | h'
      · exact List.mem_cons_of_mem _ (h r h')
      · simp only [List.mem_singleton] at h'
        subst h'
        exact List.mem_cons_self _ _

theorem pushNeighbors_nodup {α : Type} (cur : Point)
    (ns : List (Point × α × Direction)) :
    ∀ (st : BfsState), st.seen.Nodup →
      (pushNeighbors cur ns st).seen.Nodup := by
  induction ns with
  | nil => intro st h; exact h
  | cons t ts ih =>
    intro st h
    simp only [pushNeighbors]
    split
    · exact ih st h
    · rename_i hm
      exact ih _ (List.nodup_cons.mpr ⟨hm, h⟩)

theorem pushNeighbors_keys {α : Type} (cur : Point)
    (ns : List (Point × α × Direction)) :
    ∀ (st : BfsState), st.preds.map Prod.fst = st.seen →
      (pushNeighbors cur ns st).preds.map Prod.fst =
        (pushNeighbors cur ns st).seen := by
  induction ns with
  | nil => intro st h; exact h
  | cons t ts ih =>
    intro st h
    simp only [pushNeighbors]
    split
    · exact ih st h
    · refine ih _ ?_
      simp only [List.map_cons, h]

theorem pushNeighbors_size {α : Type} (cur : Point)
    (ns : List (Point × α × Direction)) :
    ∀ (st : BfsState),
      (pushNeighbors cur ns st).queue.length + st.seen.length =
        st.queue.length + (pushNeighbors cur ns st).seen.length := by
  induction ns with
  | nil => intro st; rfl
  | cons t ts ih =>
    intro st
    simp only [pushNeighbors]
    split
    · exact ih st
    · have h := ih ⟨st.queue ++ [t.1], t.1 :: st.seen, (t.1, some cur) :: st.preds⟩
      simp only [List.length_append, List.length_cons,
        List.length_nil] at h
      omega

theorem pushNeighbors_preds_invs {α : Type} (cur source : Point)
    (ns : List (Point × α × Direction)) :
    ∀ (st : BfsState), st.preds.map Prod.fst = st.seen → goodPreds st.preds →
      cur ∈ st.seen → (∀ x, plookup st.preds x = some none → x = source) →
      plookup st.preds source = some none →
      goodPreds (pushNeighbors cur ns st).preds ∧
        (∀ x, plookup (pushNeighbors cur ns st).preds x = some none →
          x = source) ∧
        plookup (pushNeighbors cur ns st).preds source = some none := by
  induction ns with
  | nil => intro st h1 h2 h3 h4 h5; exact ⟨h2, h4, h5⟩
  | cons t ts ih =>
    intro st h1 h2 h3 h4 h5
    simp only [pushNeighbors]
    split
    · exact ih st h1 h2 h3 h4 h5
    · rename_i hm
      have hsrc_seen : source ∈ st.seen := by
        rw [← h1]
        exact plookup_mem h5
      have hsrc_ne : source ≠ t.1 := fun h => hm (h ▸ hsrc_seen)
      apply ih
      · simp only [List.map_cons, h1]
      · refine ⟨?_, ?_, h2⟩
        · rw [h1]; exact hm
        · intro cc hcc
          injection hcc with hcc
          subst hcc
          rw [h1]
          exact h3
      · exact List.mem_cons_of_mem _ h3
      · intro x hx
        simp only [plookup] at hx
        split at hx
        · exact absurd hx (by simp)
        · exact h4 x hx
      · simp only [plookup]
        rw [if_neg hsrc_ne]
        exact h5

theorem length_inboundsList {α : Type} (g : Grid α) :
    (inboundsList g).length = g.w * g.h := by
  unfold inboundsList
  rw [genData_length, Nat.mul_comm]

theorem mem_inboundsList {α : Type} {g : Grid α} {p : Point} :
    p ∈ inboundsList g ↔ g.inbounds p = true := by
  obtain ⟨px, py⟩ := p
  rw [Grid.inbounds_iff]
  unfold inboundsList genData
  simp only [List.mem_flatMap, List.mem_map, List.mem_range, Point.mk.injEq]
  constructor
  · rintro ⟨y, hy, x, hx, hpx, hpy⟩
    refine ⟨by omega, by omega, by omega, by omega⟩
  · rintro ⟨hx0, hxw, hy0, hyh⟩
    exact ⟨py.toNat, by omega, px.toNat, by omega, by omega, by omega⟩

theorem seen_length_le {α : Type} [DecidableEq α] {g : Grid α}
    {excl incl : Option (GFilter α)} {diag : Bool} {ao : Option Bool}
    {source : Point} {st : BfsState}
    (hinv : BfsInv g excl incl diag ao source st) :
    st.seen.length ≤ g.w * g.h + 1 := by
  have hsub : st.seen ⊆ source :: inboundsList g := by
    intro x hx
    rcases hinv.inb x hx with h | h
    · simp [h]
    · exact List.mem_cons_of_mem _ (mem_inboundsList.mpr h)
  have hle := (hinv.nodup.subperm hsub).length_le
  simp only [List.length_cons, length_inboundsList] at hle
  omega

theorem bfsInv_init {α : Type} [DecidableEq α] (g : Grid α)
    (excl incl : Option (GFilter α)) (diag : Bool) (ao : Option Bool)
    (source : Point) :
    BfsInv g excl incl diag ao source
      ⟨[source], [source], [(source, none)]⟩ := by
  refine ⟨rfl, fun q hq => hq, List.nodup_singleton _, ?_, ?_, ?_, ?_, ?_, ?_⟩
  · intro q hq
    simp only [List.mem_singleton] at hq
    exact Or.inl hq
  · intro q hq
    simp only [List.mem_singleton] at hq
    subst hq
    exact Relation.ReflTransGen.refl
  · intro p hp
    exact Or.inl hp
  · exact ⟨by simp, fun c hc => by exact absurd hc (by simp), trivial⟩
  · simp [plookup]
  · intro x hx
    simp only [plookup] at hx
    split at hx
    · assumption
    · exact absurd hx (by simp [plookup])

theorem bfsInv_step {α : Type} [DecidableEq α] {g : Grid α}
    {excl incl : Option (GFilter α)} {diag : Bool} {ao : Option Bool}
    {source : Point} (hov : g.overflowOf ao = false)
    {c : Point} {rest seen : List Point}
    {preds : List (Point × Option Point)}
    (hinv : BfsInv g excl incl diag ao source ⟨c :: rest, seen, preds⟩) :
    BfsInv g excl incl diag ao source
      (pushNeighbors c (g.neighbors c excl incl ao diag)
        ⟨rest, seen, preds⟩) := by
  set ns := g.neighbors c excl incl ao diag with hns
  set st0 : BfsState := ⟨rest, seen, preds⟩ with hst0
  have hc_seen : c ∈ seen := hinv.queue_sub c (List.mem_cons_self _ _)
  have hreach_c : g.Reaches excl incl diag ao source c := hinv.reach c hc_seen
  obtain ⟨hg, ho, hs⟩ := pushNeighbors_preds_invs c source ns st0
    hinv.keys_seen hinv.good hc_seen hinv.only_src_none hinv.src_none
  refine ⟨pushNeighbors_keys c ns st0 hinv.keys_seen, ?_, ?_, ?_, ?_, ?_,
    hg, hs, ho⟩
  · exact pushNeighbors_queue_sub c ns st0
      (fun q hq => hinv.queue_sub q (List.mem_cons_of_mem _ hq))
  · exact pushNeighbors_nodup c ns st0 hinv.nodup
  · intro q hq
    rcases pushNeighbors_seen_of c ns st0 q hq with h | h
    · exact hinv.inb q h
    · right
      obtain ⟨⟨q1, v1, d1⟩, hmem, ht⟩ := List.mem_map.mp h
      dsimp only at ht
      subst ht
      exact Grid.mem_neighbors_inbounds hov hmem
  · intro q hq
    rcases pushNeighbors_seen_of c ns st0 q hq with h | h
    · exact hinv.reach q h
    · obtain ⟨⟨q1, v1, d1⟩, hmem, ht⟩ := List.mem_map.mp h
      dsimp only at ht
      subst ht
      exact Relation.ReflTransGen.tail hreach_c ⟨v1, d1, hmem⟩
  · intro p hp
    by_cases hps : p ∈ seen
    · rcases hinv.closed p hps with hq | hcl
      · rcases List.mem_cons.mp hq with hpc | hprest
        · right
          intro q v d hmem
          rw [hpc] at hmem
          exact pushNeighbors_mem_seen c ns st0 (q, v, d) hmem
        · left
          exact pushNeighbors_queue_mono c ns st0 p hprest
      · right
        intro q v d hmem
        exact pushNeighbors_seen_mono c ns st0 q (hcl q v d hmem)
    · left
      exact pushNeighbors_new_in_queue c ns st0 p hp hps

theorem bfsLoop_total {α : Type} [DecidableEq α] {g : Grid α}
    {excl incl : Option (GFilter α)} {diag : Bool} {ao : Option Bool}
    {source target : Point} (hov : g.overflowOf ao = false) :
    ∀ (fuel : Nat) (st : BfsState),
      BfsInv g excl incl diag ao source st →
      st.queue.length + (g.w * g.h + 1) ≤ fuel + st.seen.length →
      bfsLoop g target excl incl diag ao fuel st ≠ none := by
  intro fuel
  induction fuel with
  | zero =>
    rintro ⟨queue, seen, preds⟩ hinv hle
    rcases queue with _ | ⟨c, rest⟩
    · simp [bfsLoop]
    · have hsb : seen.length ≤ g.w * g.h + 1 := seen_length_le hinv
      simp only [List.length_cons] at hle
      omega
  | succ n ih =>
    rintro ⟨queue, seen, preds⟩ hinv hle
    rcases queue with _ | ⟨c, rest⟩
    · simp [bfsLoop]
    · simp only [bfsLoop]
      by_cases hct : c = target
      · rw [if_pos hct]
        simp
      · rw [if_neg hct]
        have hstep := bfsInv_step hov hinv
        have hsize :
            (pushNeighbors c (g.neighbors c excl incl ao diag)
                ⟨rest, seen, preds⟩).queue.length + seen.length =
              rest.length +
                (pushNeighbors c (g.neighbors c excl incl ao diag)
                  ⟨rest, seen, preds⟩).seen.length :=
          pushNeighbors_size c (g.neighbors c excl incl ao diag)
            ⟨rest, seen, preds⟩
        apply ih _ hstep
        simp only [List.length_cons] at hle
        omega

theorem bfsLoop_exit {α : Type} [DecidableEq α] {g : Grid α}
    {excl incl : Option (GFilter α)} {diag : Bool} {ao : Option Bool}
    {source target : Point} (hov : g.overflowOf ao = false) :
    ∀ (fuel : Nat) (st : BfsState) (preds : List (Point × Option Point)),
      BfsInv g excl incl diag ao source st →
      bfsLoop g target excl incl diag ao fuel st = some preds →
      ∃ sf : BfsState, sf.preds = preds ∧
        BfsInv g excl incl diag ao source sf ∧
        (sf.queue = [] ∨ target ∈ sf.seen) := by
  intro fuel
  induction fuel with
  | zero =>
    rintro ⟨queue, seen, predsv⟩ preds hinv hrun
    rcases queue with _ | ⟨c, rest⟩
    · simp only [bfsLoop, Option.some_inj] at hrun
      exact ⟨⟨[], seen, predsv⟩, hrun, hinv, Or.inl rfl⟩
    · simp only [bfsLoop] at hrun
      by_cases hct : c = target
      · rw [if_pos hct] at hrun
        simp only [Option.some_inj] at hrun
        refine ⟨⟨c :: rest, seen, predsv⟩, hrun, hinv, Or.inr ?_⟩
        subst hct
        exact hinv.queue_sub c (List.mem_cons_self _ _)
      · rw [if_neg hct] at hrun
        exact absurd hrun (by simp)
  | succ n ih =>
    rintro ⟨queue, seen, predsv⟩ preds hinv hrun
    rcases queue with _ | ⟨c, rest⟩
    · simp only [bfsLoop, Option.some_inj] at hrun
      exact ⟨⟨[], seen, predsv⟩, hrun, hinv, Or.inl rfl⟩
    · simp only [bfsLoop] at hrun
      by_cases hct : c = target
      · rw [if_pos hct] at hrun
        simp only [Option.some_inj] at hrun
        refine ⟨⟨c :: rest, seen, predsv⟩, hrun, hinv, Or.inr ?_⟩
        subst hct
        exact hinv.queue_sub c (List.mem_cons_self _ _)
      · rw [if_neg hct] at hrun
        exact ih _ preds (bfsInv_step hov hinv) hrun

theorem reaches_mem_of_closed {α : Type} [DecidableEq α] {g : Grid α}
    {excl incl : Option (GFilter α)} {diag : Bool} {ao : Option Bool}
    {S : List Point}
    (hclosed : ∀ p ∈ S, ∀ q v d,
      (q, v, d) ∈ g.neighbors p excl incl ao diag → q ∈ S)
    {s t : Point} (hs : s ∈ S)
    (hr : g.Reaches excl incl diag ao s t) : t ∈ S := by
  unfold Grid.Reaches at hr
  induction hr with
  | refl => exact hs
  | tail _ hbc ih =>
    obtain ⟨v, d, hmem⟩ := hbc
    exact hclosed _ ih _ v d hmem

theorem keyDepth_le (l : List (Point × Option Point)) (t : Point) :
    keyDepth l t ≤ l.length := by
  induction l with
  | nil => simp [keyDepth]
  | cons e rest ih =>
    obtain ⟨k, w⟩ := e
    simp only [keyDepth, List.length_cons]
    split
    · omega
    · exact Nat.le_succ_of_le ih

theorem keyDepth_lt_of_mem {l : List (Point × Option Point)} {t : Point}
    (h : t ∈ l.map Prod.fst) : keyDepth l t < l.length := by
  induction l with
  | nil => simp at h
  | cons e rest ih =>
    obtain ⟨k, w⟩ := e
    simp only [keyDepth, List.length_cons]
    split
    · omega
    · rename_i hne
      simp only [List.map_cons, List.mem_cons] at h
      rcases h with h | h
      · exact absurd h hne
      · exact Nat.lt_succ_of_lt (ih h)

theorem goodPreds_parent_mem {l : List (Point × Option Point)}
    (hg : goodPreds l) {t c : Point}
    (h : plookup l t = some (some c)) : c ∈ l.map Prod.fst := by
  induction l with
  | nil => simp [plookup] at h
  | cons e rest ih =>
    obtain ⟨k, w⟩ := e
    obtain ⟨hk, hw, hrest⟩ := hg
    simp only [plookup] at h
    simp only [List.map_cons, List.mem_cons]
    split at h
    · injection h with h
      exact Or.inr (hw c h)
    · exact Or.inr (ih hrest h)

theorem goodPreds_depth_lt {l : List (Point × Option Point)}
    (hg : goodPreds l) {t c : Point}
    (h : plookup l t = some (some c)) : keyDepth l c < keyDepth l t := by
  induction l with
  | nil => simp [plookup] at h
  | cons e rest ih =>
    obtain ⟨k, w⟩ := e
    obtain ⟨hk, hw, hrest⟩ := hg
    simp only [plookup] at h
    simp only [keyDepth]
    by_cases htk : t = k
    · rw [if_pos htk] at h
      injection h with h
      have hcm : c ∈ rest.map Prod.fst := hw c h
      have hck : ¬ c = k := fun e => hk (e ▸ hcm)
      rw [if_neg hck, if_pos htk]
      exact keyDepth_lt_of_mem hcm
    · rw [if_neg htk] at h
      have hcm : c ∈ rest.map Prod.fst := goodPreds_parent_mem hrest h
      have hck : ¬ c = k := fun e => hk (e ▸ hcm)
      rw [if_neg hck, if_neg htk]
      exact ih hrest h

theorem backtrack_ok (preds : List (Point × Option Point)) (source : Point)
    (hg : goodPreds preds)
    (hnone : ∀ x, plookup preds x = some none → x = source) :
    ∀ (n : Nat) (t : Point) (acc : List Point),
      plookup preds t ≠ none → keyDepth preds t < n →
      ∃ chain : List Point,
        backtrack preds n t acc = some (chain ++ acc) ∧
          chain.head? = some source ∧ chain.getLast? = some t := by
  intro n
  induction n with
  | zero => intro t acc h hd; omega
  | succ n ih =>
    intro t acc hlk hd
    rcases hpar : plookup preds t with _ | par
    · exact absurd hpar hlk
    · rcases par with _ | prev
      · have ht : t = source := hnone t hpar
        refine ⟨[t], ?_, by simp [ht], by simp⟩
        simp only [backtrack, hpar]
        rfl
      · have hpm : prev ∈ preds.map Prod.fst := goodPreds_parent_mem hg hpar
        obtain ⟨pv, hpv⟩ := plookup_of_mem hpm
        have hdlt : keyDepth preds prev < keyDepth preds t :=
          goodPreds_depth_lt hg hpar
        obtain ⟨chain, hbt, hhd, hlast⟩ :=
          ih prev (t :: acc) (by rw [hpv]; simp) (by omega)
        have hchne : chain ≠ [] := by
          intro e
          rw [e] at hhd
          simp at hhd
        refine ⟨chain ++ [t], ?_, ?_, List.getLast?_concat _⟩
        · simp only [backtrack, hpar]
          rw [hbt, List.append_assoc]
          rfl
        · rw [List.head?_append, hhd]
          rfl

/-- **C4 (amended).** With overflow not in effect for the call (so the
search space is finite), `shortest_path` raises "no path found" exactly when
the target is not reachable from the source through the neighbor relation
filtered by the active exclude/include arguments; when the target is
reachable it does not raise and returns the points from source to target
inclusive.  (As literally stated over every grid and argument combination
the claim fails: with overflow in effect the implicit graph is infinite and
the loop can run forever, neither raising nor returning — see the
counterexample theorem.) -/
theorem claim4_shortest_path {α : Type} [DecidableEq α] (g : Grid α)
    (source target : Point) (excl incl : Option (GFilter α)) (diag : Bool)
    (ao : Option Bool) (hov : g.overflowOf ao = false) :
    (g.shortestPath source target excl incl diag ao = SPResult.noPath ↔
      ¬ g.Reaches excl incl diag ao source target) ∧
    (g.Reaches excl incl diag ao source target →
      ∃ path : List Point,
        g.shortestPath source target excl incl diag ao =
            SPResult.found path ∧
          path.head? = some source ∧ path.getLast? = some target) := by
  have hinit := bfsInv_init g excl incl diag ao source
  have hterm : bfsLoop g target excl incl diag ao (g.w * g.h + 1)
      ⟨[source], [source], [(source, none)]⟩ ≠ none :=
    bfsLoop_total hov (g.w * g.h + 1)
      ⟨[source], [source], [(source, none)]⟩ hinit
      (by simp only [List.length_cons, List.length_nil]; omega)
  unfold Grid.shortestPath
  rcases hrun : bfsLoop g target excl incl diag ao (g.w * g.h + 1)
      ⟨[source], [source], [(source, none)]⟩ with _ | preds
  · exact absurd hrun hterm
  · obtain ⟨sf, hsfp, hsfinv, hsfcase⟩ :=
      bfsLoop_exit hov _ _ preds hinit hrun
    subst hsfp
    simp only [hrun]
    rcases hlk : plookup sf.preds target with _ | par
    · have hnr : ¬ g.Reaches excl incl diag ao source target := by
        intro hr
        have htseen : target ∉ sf.seen := by
          intro hts
          rw [← hsfinv.keys_seen] at hts
          obtain ⟨v, hv⟩ := plookup_of_mem hts
          rw [hlk] at hv
          exact absurd hv (by simp)
        rcases hsfcase with hqe | hts
        · have hclosed : ∀ p ∈ sf.seen, ∀ q v d,
              (q, v, d) ∈ g.neighbors p excl incl ao diag → q ∈ sf.seen := by
            intro p hp q v d hm
            rcases hsfinv.closed p hp with hq | hcl
            · rw [hqe] at hq
              simp at hq
            · exact hcl q v d hm
          have hsrc : source ∈ sf.seen := by
            rw [← hsfinv.keys_seen]
            exact plookup_mem hsfinv.src_none
          exact htseen (reaches_mem_of_closed hclosed hsrc hr)
        · exact htseen hts
      exact ⟨⟨fun _ => hnr, fun _ => rfl⟩, fun hr => absurd hr hnr⟩
    · have htseen : target ∈ sf.seen := by
        rw [← hsfinv.keys_seen]
        exact plookup_mem hlk
      have hreach_t : g.Reaches excl incl diag ao source target :=
        hsfinv.reach target htseen
      obtain ⟨chain, hbt, hhd, hlast⟩ :=
        backtrack_ok sf.preds source hsfinv.good hsfinv.only_src_none
          (sf.preds.length + 1) target [] (by rw [hlk]; simp)
          (Nat.lt_succ_of_le (keyDepth_le _ _))
      rw [List.append_nil] at hbt
      simp only [hbt]
      refine ⟨⟨fun he => absurd he (by simp), fun hnr => absurd hreach_t hnr⟩,
        fun _ => ⟨chain, rfl, hhd, hlast⟩⟩

/-- Witness for the amended C4 on a concrete 1×1 grid with source = target. -/
theorem claim4_shortest_path_witness :
    (((Grid.mk 1 1 [0] false).shortestPath ⟨0, 0⟩ ⟨0, 0⟩ none none false
          none = SPResult.noPath) ↔
      ¬ (Grid.mk 1 1 [0] false).Reaches none none false none ⟨0, 0⟩ ⟨0, 0⟩) ∧
    ((Grid.mk 1 1 [0] false).Reaches none none false none ⟨0, 0⟩ ⟨0, 0⟩ →
      ∃ path : List Point,
        (Grid.mk 1 1 [0] false).shortestPath ⟨0, 0⟩ ⟨0, 0⟩ none none false
            none = SPResult.found path ∧
          path.head? = some (⟨0, 0⟩ : Point) ∧
          path.getLast? = some (⟨0, 0⟩ : Point)) :=
  claim4_shortest_path (Grid.mk 1 1 [0] false) ⟨0, 0⟩ ⟨0, 0⟩ none none
    false none rfl


theorem shouldInclude_pred {α : Type} [DecidableEq α] {q : Point} {v : α}
    {f : Point → α → Bool}
    (h : shouldInclude q v none (some (GFilter.pred f)) = true) :
    f q v = true := by
  by_cases hf : f q v = true
  · exact hf
  · rw [Bool.not_eq_true] at hf
    unfold shouldInclude at h
    simp [hf] at h

theorem shouldInclude_halfLine (q : Point) (v : Nat) :
    shouldInclude q v none (some halfLine) =
      decide (q.y = 0 ∧ 0 ≤ q.x) := by
  unfold shouldInclude halfLine
  by_cases h : q.y = 0 ∧ 0 ≤ q.x
  · simp [h]
  · simp [h]

theorem gD_get (q : Point) (ao : Option Bool)
    (hao : (Grid.mk 1 1 (([0] : List Nat)) true).overflowOf ao = true) :
    (Grid.mk 1 1 (([0] : List Nat)) true).get q none ao = some 0 := by
  have hat : ∀ ao' : Option Bool,
      (Grid.mk 1 1 (([0] : List Nat)) true).overflowOf ao' = true →
        (Grid.mk 1 1 (([0] : List Nat)) true).atP q ao' = some 0 := by
    intro ao' hao'
    unfold Grid.atP
    rw [hao']
    simp [pyGet, Int.emod_one]
  unfold Grid.get
  by_cases hin : (Grid.mk 1 1 (([0] : List Nat)) true).inbounds q = true
  · rw [if_pos hin]
    exact hat ao hao
  · rw [if_neg hin, if_pos hao]
    exact hat (some true) rfl

theorem gD_neighbors (k : Int) (hk : 0 ≤ k) :
    (Grid.mk 1 1 (([0] : List Nat)) true).neighbors ⟨k, 0⟩ none
        (some halfLine) none false =
      if k = 0 then [(⟨k + 1, 0⟩, 0, Direction.right)]
      else [(⟨k - 1, 0⟩, 0, Direction.left),
            (⟨k + 1, 0⟩, 0, Direction.right)] := by
  unfold Grid.neighbors
  have h4 : Point.neighborsWithDirection ⟨k, 0⟩ false =
      [(⟨k, -1⟩, Direction.up), (⟨k, 1⟩, Direction.down),
        (⟨k - 1, 0⟩, Direction.left), (⟨k + 1, 0⟩, Direction.right)] := by
    simp [Point.neighborsWithDirection, Point.neighbor, Direction.delta]
    omega
  rw [h4]
  simp only [List.filterMap_cons, List.filterMap_nil]
  rw [gD_get ⟨k, -1⟩ none rfl, gD_get ⟨k, 1⟩ none rfl,
    gD_get ⟨k - 1, 0⟩ none rfl, gD_get ⟨k + 1, 0⟩ none rfl]
  dsimp only
  simp only [shouldInclude_halfLine, decide_eq_true_eq]
  rw [if_pos (⟨trivial, by omega⟩ : True ∧ (0 : Int) ≤ k + 1)]
  have hup : ¬ ((-1 : Int) = 0 ∧ 0 ≤ k) := by
    rintro ⟨h1, -⟩
    norm_num at h1
  have hdown : ¬ ((1 : Int) = 0 ∧ 0 ≤ k) := by
    rintro ⟨h1, -⟩
    norm_num at h1
  by_cases hk0 : k = 0
  · rw [if_neg (fun h => by have := h.2; omega :
        ¬ (True ∧ (0 : Int) ≤ k - 1)), if_pos hk0, if_neg hup,
      if_neg hdown]
  · rw [if_pos (⟨trivial, by omega⟩ : True ∧ (0 : Int) ≤ k - 1),
      if_neg hk0, if_neg hup, if_neg hdown]

theorem mem_seenD_iff {k : Nat} {q : Point} :
    q ∈ seenD k ↔ q.y = 0 ∧ 0 ≤ q.x ∧ q.x ≤ (k : Int) := by
  obtain ⟨qx, qy⟩ := q
  dsimp only
  induction k with
  | zero =>
    simp only [seenD, List.mem_singleton, Point.mk.injEq, Nat.cast_zero]
    constructor
    · rintro ⟨h1, h2⟩
      subst h1
      subst h2
      exact ⟨rfl, le_refl _, le_refl _⟩
    · rintro ⟨h1, h2, h3⟩
      exact ⟨by omega, h1⟩
  | succ k ih =>
    simp only [seenD, List.mem_cons, Point.mk.injEq, ih, Nat.cast_succ]
    constructor
    · rintro (⟨h1, h2⟩ | ⟨h1, h2, h3⟩)
      · subst h1
        subst h2
        exact ⟨rfl, by omega, by omega⟩
      · exact ⟨h1, h2, by omega⟩
    · rintro ⟨h1, h2, h3⟩
      by_cases hx : qx = (k : Int) + 1
      · exact Or.inl ⟨hx, h1⟩
      · exact Or.inr ⟨h1, h2, by omega⟩

theorem bfsLoop_div :
    ∀ (n k : Nat) (P : List (Point × Option Point)),
      bfsLoop (Grid.mk 1 1 (([0] : List Nat)) true) ⟨-1, 0⟩ none
          (some halfLine) false none n
          ⟨[⟨(k : Int), 0⟩], seenD k, P⟩ = none := by
  have hne : ∀ k : Nat, ¬ ((⟨(k : Int), 0⟩ : Point) = ⟨-1, 0⟩) := by
    intro k h
    have hx := congrArg Point.x h
    simp only [Int.reduceNeg] at hx
    omega
  intro n
  induction n with
  | zero =>
    intro k P
    simp only [bfsLoop]
    rw [if_neg (hne k)]
  | succ n ih =>
    intro k P
    simp only [bfsLoop]
    rw [if_neg (hne k)]
    rw [gD_neighbors (k : Int) (by omega)]
    have hnm : (⟨(k : Int) + 1, 0⟩ : Point) ∉ seenD k := by
      rw [mem_seenD_iff]
      rintro ⟨-, -, h3⟩
      dsimp only at h3
      omega
    have hrec := ih (k + 1)
      ((⟨(k : Int) + 1, 0⟩, some ⟨(k : Int), 0⟩) :: P)
    rw [show ((k + 1 : Nat) : Int) = (k : Int) + 1 by push_cast; ring,
      show seenD (k + 1) = ⟨(k : Int) + 1, 0⟩ :: seenD k from rfl] at hrec
    by_cases hk0 : (k : Int) = 0
    · rw [if_pos hk0]
      simp only [pushNeighbors]
      rw [if_neg hnm]
      simp only [pushNeighbors, List.nil_append]
      exact hrec
    · rw [if_neg hk0]
      have hmem : (⟨(k : Int) - 1, 0⟩ : Point) ∈ seenD k := by
        rw [mem_seenD_iff]
        refine ⟨rfl, ?_, ?_⟩
        · show (0 : Int) ≤ (k : Int) - 1
          omega
        · show (k : Int) - 1 ≤ (k : Int)
          omega
      simp only [pushNeighbors]
      rw [if_pos hmem, if_neg hnm]
      simp only [List.nil_append]
      exact hrec

/-- **C4 counterexample.** On the 1×1 grid with `allow_overflow=True` and an
include-predicate admitting exactly the half-line `{(x,0) | x >= 0}`, the
target (-1, 0) is NOT reachable from (0, 0), yet `shortest_path` does not
raise "no path found": the wrapped grid makes the search space infinite and
the BFS walks the half-line forever, so for every iteration budget the loop
is still running.  The claim's "raises iff unreachable", stated over every
grid, is therefore false. -/
theorem claim4_counterexample :
    ¬ (Grid.mk 1 1 (([0] : List Nat)) true).Reaches none (some halfLine)
        false none ⟨0, 0⟩ ⟨-1, 0⟩ ∧
    ∀ n : Nat,
      (Grid.mk 1 1 (([0] : List Nat)) true).shortestPath ⟨0, 0⟩ ⟨-1, 0⟩
          none (some halfLine) false none n = SPResult.diverged := by
  constructor
  · intro hr
    unfold Grid.Reaches at hr
    have hstep : ∀ t : Point, Relation.ReflTransGen
        ((Grid.mk 1 1 (([0] : List Nat)) true).stepRel none (some halfLine)
          false none) ⟨0, 0⟩ t → 0 ≤ t.x := by
      intro t ht
      induction ht with
      | refl => decide
      | tail hab hbc ih =>
        obtain ⟨v, d, hmem⟩ := hbc
        obtain ⟨-, -, hsi⟩ := Grid.mem_neighbors.mp hmem
        have hpred := shouldInclude_pred hsi
        exact (of_decide_eq_true hpred).2
    have hx := hstep ⟨-1, 0⟩ hr
    norm_num at hx
  · intro n
    unfold Grid.shortestPath
    rw [show bfsLoop (Grid.mk 1 1 (([0] : List Nat)) true) ⟨-1, 0⟩ none
        (some halfLine) false none n
        ⟨[⟨0, 0⟩], [⟨0, 0⟩], [(⟨0, 0⟩, none)]⟩ = none from
      bfsLoop_div n 0 [(⟨0, 0⟩, none)]]
